import Mathlib

/-!
Verification of the request-safety and presentation layer of the n8n workflow
documentation API server (`api_server.py`).

The development shallowly embeds the Python source:

* filesystem paths are absolute component lists (`FsPath`), a filesystem state
  is a record of predicates (`FileSystem`) whose `resolve` field models
  `pathlib.Path.resolve` (symlink canonicalization) as an arbitrary function,
  so every symbolic-link arrangement is covered;
* the per-subdirectory lookup loops of `get_workflow_detail` and
  `download_workflow` become `findMatchingFile` and `downloadResolve`;
* `pathlib.Path.relative_to` on two absolute canonical paths succeeds exactly
  when the base is a lexical component-prefix, embedded as `List.isPrefixOf`.
-/

namespace ApiServer

/-- Absolute filesystem paths, as lists of path components. -/
abbrev FsPath := List String

/-- A filesystem state: existence, file/directory predicates, directory
listing order, and symlink canonicalization (`pathlib.Path.resolve`).
All fields are unconstrained, so arbitrary symlink arrangements (and even
incoherent states) are representable; theorems state any coherence they need. -/
structure FileSystem where
  pexists : FsPath → Bool
  isFile : FsPath → Bool
  isDir : FsPath → Bool
  listDir : FsPath → List String
  resolve : FsPath → FsPath

/-- Loop body of `get_workflow_detail` (api_server.py lines 372-386): scan the
given subdirectory entries of `root` in listing order; for the first entry that
is a directory and contains `filename` as an existing regular file, check
`target.resolve().relative_to(root)`; on success return the target and stop,
on `ValueError` (`root` not a prefix of the canonical path) continue with the
remaining entries. -/
def findInSubdirs (fs : FileSystem) (root : FsPath) (filename : String) :
    List String → Option FsPath
  | [] => none
  | e :: rest =>
    if fs.isDir (root ++ [e]) = true then
      if (fs.pexists (root ++ [e, filename]) && fs.isFile (root ++ [e, filename])) = true then
        if root.isPrefixOf (fs.resolve (root ++ [e, filename])) = true then
          some (root ++ [e, filename])
        else findInSubdirs fs root filename rest
      else findInSubdirs fs root filename rest
    else findInSubdirs fs root filename rest

/-- The file lookup of `get_workflow_detail`: scan the immediate entries of the
canonicalized workflows root. -/
def findMatchingFile (fs : FileSystem) (root : FsPath) (filename : String) :
    Option FsPath :=
  findInSubdirs fs root filename (fs.listDir root)

/-- Loop body of `download_workflow` (api_server.py lines 425-439): collect
every subdirectory candidate that exists, is a regular file and passes the
containment check; candidates failing the check are skipped (`continue`). -/
def collectInSubdirs (fs : FileSystem) (root : FsPath) (filename : String) :
    List String → List FsPath
  | [] => []
  | e :: rest =>
    if fs.isDir (root ++ [e]) = true then
      if (fs.pexists (root ++ [e, filename]) && fs.isFile (root ++ [e, filename])) = true then
        if root.isPrefixOf (fs.resolve (root ++ [e, filename])) = true then
          (root ++ [e, filename]) :: collectInSubdirs fs root filename rest
        else collectInSubdirs fs root filename rest
      else collectInSubdirs fs root filename rest
    else collectInSubdirs fs root filename rest

/-- Outcome of resolution as surfaced by `download_workflow`: a file handle
(`FileResponse`), HTTP 404 (`notFound`), or HTTP 403 (`forbidden`). -/
inductive ResolveOutcome where
  | file (p : FsPath)
  | notFound
  | forbidden
deriving DecidableEq

/-- Full resolution logic of `download_workflow` (api_server.py lines 425-456):
collect passing candidates; empty list is 404; otherwise take `json_files[0]`
and re-run the containment check once more (the "final security check"),
returning 403 on failure. -/
def downloadResolve (fs : FileSystem) (root : FsPath) (filename : String) :
    ResolveOutcome :=
  match collectInSubdirs fs root filename (fs.listDir root) with
  | [] => ResolveOutcome.notFound
  | p :: _ =>
    if root.isPrefixOf (fs.resolve p) = true then ResolveOutcome.file p
    else ResolveOutcome.forbidden

/-- Every file returned by the `get_workflow_detail` scan passed the
containment check and is an existing regular file. -/
theorem findInSubdirs_sound (fs : FileSystem) (root : FsPath) (filename : String)
    (entries : List String) (p : FsPath)
    (h : findInSubdirs fs root filename entries = some p) :
    root.isPrefixOf (fs.resolve p) = true ∧ fs.isFile p = true := by
  induction entries with
  | nil => simp [findInSubdirs] at h
  | cons e rest ih =>
    by_cases hd : fs.isDir (root ++ [e]) = true
    · by_cases hef : (fs.pexists (root ++ [e, filename]) &&
          fs.isFile (root ++ [e, filename])) = true
      · by_cases hc : root.isPrefixOf (fs.resolve (root ++ [e, filename])) = true
        · rw [findInSubdirs, if_pos hd, if_pos hef, if_pos hc] at h
          cases h
          exact ⟨hc, (Bool.and_eq_true _ _ |>.mp hef).2⟩
        · rw [findInSubdirs, if_pos hd, if_pos hef, if_neg hc] at h
          exact ih h
      · rw [findInSubdirs, if_pos hd, if_neg hef] at h
        exact ih h
    · rw [findInSubdirs, if_neg hd] at h
      exact ih h

/-- Every candidate collected by the `download_workflow` scan passed the
containment check and is an existing regular file. -/
theorem collectInSubdirs_sound (fs : FileSystem) (root : FsPath) (filename : String)
    (entries : List String) (p : FsPath)
    (h : p ∈ collectInSubdirs fs root filename entries) :
    root.isPrefixOf (fs.resolve p) = true ∧ fs.isFile p = true := by
  induction entries with
  | nil => simp [collectInSubdirs] at h
  | cons e rest ih =>
    by_cases hd : fs.isDir (root ++ [e]) = true
    · by_cases hef : (fs.pexists (root ++ [e, filename]) &&
          fs.isFile (root ++ [e, filename])) = true
      · by_cases hc : root.isPrefixOf (fs.resolve (root ++ [e, filename])) = true
        · rw [collectInSubdirs, if_pos hd, if_pos hef, if_pos hc] at h
          rcases List.mem_cons.mp h with h | h
          · subst h
            exact ⟨hc, (Bool.and_eq_true _ _ |>.mp hef).2⟩
          · exact ih h
        · rw [collectInSubdirs, if_pos hd, if_pos hef, if_neg hc] at h
          exact ih h
      · rw [collectInSubdirs, if_pos hd, if_neg hef] at h
        exact ih h
    · rw [collectInSubdirs, if_neg hd] at h
      exact ih h

/-- C1: for every filename and every filesystem state (hence every arrangement
of symbolic links, since `resolve` is arbitrary), whenever the per-subdirectory
resolver of `get_workflow_detail` or `download_workflow` returns a file, the
canonical (symlink-resolved) path of that file has the canonicalized workflows
root as an ancestor; under the filesystem coherence facts that canonicalizing
an existing regular file yields an existing regular file and that the root
itself is not a regular file, the canonical path is moreover a strict
descendant, so it never lies outside the root. -/
theorem resolved_file_contained_in_root (fs : FileSystem) (root : FsPath)
    (filename : String)
    (hres : ∀ q, fs.isFile q = true → fs.isFile (fs.resolve q) = true)
    (hroot : fs.isFile root = false) :
    (∀ p, findMatchingFile fs root filename = some p →
      root.isPrefixOf (fs.resolve p) = true ∧ fs.resolve p ≠ root) ∧
    (∀ p, downloadResolve fs root filename = ResolveOutcome.file p →
      root.isPrefixOf (fs.resolve p) = true ∧ fs.resolve p ≠ root) := by
  constructor
  · intro p hp
    obtain ⟨hpre, hfile⟩ := findInSubdirs_sound fs root filename (fs.listDir root) p hp
    refine ⟨hpre, fun heq => ?_⟩
    have hrf := hres p hfile
    rw [heq, hroot] at hrf
    exact Bool.false_ne_true hrf
  · intro p hp
    unfold downloadResolve at hp
    rcases hcol : collectInSubdirs fs root filename (fs.listDir root) with _ | ⟨q, qs⟩
    · rw [hcol] at hp
      exact absurd hp (by simp)
    · rw [hcol] at hp
      have hq : q ∈ collectInSubdirs fs root filename (fs.listDir root) := by
        rw [hcol]; exact List.mem_cons_self q qs
      obtain ⟨hpre, hfile⟩ := collectInSubdirs_sound fs root filename _ q hq
      simp only [hpre, if_true] at hp
      obtain rfl : q = p := by
        injection hp
      refine ⟨hpre, fun heq => ?_⟩
      have hrf := hres q hfile
      rw [heq, hroot] at hrf
      exact Bool.false_ne_true hrf

/-- Identity-resolution filesystem with one category subdirectory `a` of root
`r` holding the regular file `f.json`; used to witness the resolver theorems. -/
def fsPlain : FileSystem where
  pexists := fun p => p == ["r", "a", "f.json"]
  isFile := fun p => p == ["r", "a", "f.json"]
  isDir := fun p => p == ["r"] || p == ["r", "a"]
  listDir := fun p => if p == ["r"] then ["a"] else []
  resolve := fun p => p

/-- Witness for C1: on the concrete filesystem `fsPlain` the resolver returns
the file in subdirectory `a`, and the theorem's hypotheses hold and yield
strict containment for it. -/
theorem resolved_file_contained_in_root_witness :
    findMatchingFile fsPlain ["r"] "f.json" = some ["r", "a", "f.json"] ∧
    (["r"] : FsPath).isPrefixOf (fsPlain.resolve ["r", "a", "f.json"]) = true ∧
    fsPlain.resolve ["r", "a", "f.json"] ≠ ["r"] := by
  refine ⟨by decide, ?_⟩
  have h := resolved_file_contained_in_root fsPlain ["r"] "f.json"
    (fun q hq => hq) (by decide)
  exact h.1 ["r", "a", "f.json"] (by decide)

/-- Modelled from the spec: the resolver described by spec §4.2 step 5, which
on the first candidate that exists as a regular file either returns it (when
containment holds) or returns `Forbidden` and stops scanning the remaining
subdirectories. -/
def specStopOnEscapeResolve (fs : FileSystem) (root : FsPath) (filename : String) :
    List String → ResolveOutcome
  | [] => ResolveOutcome.notFound
  | e :: rest =>
    if fs.isDir (root ++ [e]) = true then
      if (fs.pexists (root ++ [e, filename]) && fs.isFile (root ++ [e, filename])) = true then
        if root.isPrefixOf (fs.resolve (root ++ [e, filename])) = true then
          ResolveOutcome.file (root ++ [e, filename])
        else ResolveOutcome.forbidden
      else specStopOnEscapeResolve fs root filename rest
    else specStopOnEscapeResolve fs root filename rest

/-- Filesystem with two category subdirectories `a` and `b` (listed in that
order) both holding `f.json`, where the copy under `a` canonicalizes (via a
planted symlink) to a path outside the root and the copy under `b` is genuine. -/
def fsEscape : FileSystem where
  pexists := fun p => p == ["r", "a", "f.json"] || p == ["r", "b", "f.json"]
  isFile := fun p => p == ["r", "a", "f.json"] || p == ["r", "b", "f.json"]
  isDir := fun p => p == ["r"] || p == ["r", "a"] || p == ["r", "b"]
  listDir := fun p => if p == ["r"] then ["a", "b"] else []
  resolve := fun p => if p == ["r", "a", "f.json"] then ["z", "f.json"] else p

/-- Counterexample for C3: on `fsEscape` the behaviour the claim mandates
(return `Forbidden` at the first containment failure and stop scanning)
differs from the code, which skips the escaping candidate in subdirectory `a`,
keeps scanning, and serves the file found in subdirectory `b`; neither endpoint
ever reaches a `Forbidden` outcome there. -/
theorem resolver_forbidden_cex :
    specStopOnEscapeResolve fsEscape ["r"] "f.json" (fsEscape.listDir ["r"]) =
      ResolveOutcome.forbidden ∧
    findMatchingFile fsEscape ["r"] "f.json" = some ["r", "b", "f.json"] ∧
    downloadResolve fsEscape ["r"] "f.json" =
      ResolveOutcome.file ["r", "b", "f.json"] := by
  refine ⟨by decide, by decide, by decide⟩

/-- Spec-side description of the amended behaviour: candidates failing
containment are skipped and scanning continues; the first passing candidate
(in listing order) wins. -/
def specSkipResolve (fs : FileSystem) (root : FsPath) (filename : String) :
    Option FsPath :=
  ((fs.listDir root).filter (fun e =>
      fs.isDir (root ++ [e]) &&
      (fs.pexists (root ++ [e, filename]) && fs.isFile (root ++ [e, filename])) &&
      root.isPrefixOf (fs.resolve (root ++ [e, filename])))).head?.map
    (fun e => root ++ [e, filename])

/-- Auxiliary equivalence: the code's scan equals the skip-and-continue
description on any entry list. -/
theorem findInSubdirs_eq_skip (fs : FileSystem) (root : FsPath) (filename : String)
    (entries : List String) :
    findInSubdirs fs root filename entries =
      (entries.filter (fun e =>
        fs.isDir (root ++ [e]) &&
        (fs.pexists (root ++ [e, filename]) && fs.isFile (root ++ [e, filename])) &&
        root.isPrefixOf (fs.resolve (root ++ [e, filename])))).head?.map
      (fun e => root ++ [e, filename]) := by
  induction entries with
  | nil => simp [findInSubdirs]
  | cons e rest ih =>
    by_cases hd : fs.isDir (root ++ [e]) = true
    · by_cases hef : (fs.pexists (root ++ [e, filename]) &&
          fs.isFile (root ++ [e, filename])) = true
      · by_cases hc : root.isPrefixOf (fs.resolve (root ++ [e, filename])) = true
        · rw [findInSubdirs, if_pos hd, if_pos hef, if_pos hc]
          simp [List.filter_cons, hd, hef, hc]
        · rw [findInSubdirs, if_pos hd, if_pos hef, if_neg hc]
          rw [List.filter_cons]
          simp only [hd, hef, hc, Bool.and_true, Bool.and_false, Bool.true_and,
            Bool.false_and, if_false]
          exact ih
      · rw [findInSubdirs, if_pos hd, if_neg hef]
        rw [List.filter_cons]
        have hef' : (fs.pexists (root ++ [e, filename]) &&
            fs.isFile (root ++ [e, filename])) = false := by
          revert hef; cases fs.pexists (root ++ [e, filename]) &&
            fs.isFile (root ++ [e, filename]) <;> simp
        simp only [hef', Bool.and_false, Bool.false_and, if_false]
        exact ih
    · rw [findInSubdirs, if_neg hd]
      rw [List.filter_cons]
      have hd' : fs.isDir (root ++ [e]) = false := by
        revert hd; cases fs.isDir (root ++ [e]) <;> simp
      simp only [hd', Bool.false_and, if_false]
      exact ih

/-- C3 amended: when the containment check fails for a candidate found in some
subdirectory, the code (both endpoints) skips that candidate and continues
scanning the remaining subdirectories — the first candidate passing containment
wins and exhaustion yields `NotFound`; `download_workflow`'s distinct
`Forbidden` outcome (HTTP 403, distinguishable from `NotFound`/404) arises only
from its final re-check and is unreachable while the filesystem is unchanged
between scan and re-check. -/
theorem resolver_skip_and_distinguish (fs : FileSystem) (root : FsPath)
    (filename : String) :
    findMatchingFile fs root filename = specSkipResolve fs root filename ∧
    downloadResolve fs root filename ≠ ResolveOutcome.forbidden ∧
    ResolveOutcome.forbidden ≠ ResolveOutcome.notFound := by
  refine ⟨findInSubdirs_eq_skip fs root filename (fs.listDir root), ?_, by simp⟩
  unfold downloadResolve
  rcases hcol : collectInSubdirs fs root filename (fs.listDir root) with _ | ⟨q, qs⟩
  · simp
  · have hq : q ∈ collectInSubdirs fs root filename (fs.listDir root) := by
      rw [hcol]; exact List.mem_cons_self q qs
    obtain ⟨hpre, _⟩ := collectInSubdirs_sound fs root filename _ q hq
    simp [hpre]

/-- Module-level limit constant `MAX_REQUESTS_PER_MINUTE` (api_server.py
line 50, "Configure as needed"). -/
def MAX_REQUESTS_PER_MINUTE : Nat := 60

/-- Embedding of `check_rate_limit` (api_server.py lines 79-93), parameterized
by the configurable limit constant. Timestamps are rationals modelling
`time.time()` values. The stored record for the caller's key is first pruned to
entries with `now - t < 60`; if the pruned length has reached the limit the
call is rejected (the pruned record is kept as the new stored state, since the
cleanup assignment already happened); otherwise `now` is appended and the call
is admitted. Returns the decision and the updated stored record. -/
def check_rate_limit (limit : Nat) (record : List ℚ) (now : ℚ) : Bool × List ℚ :=
  let cleaned := record.filter (fun t => decide (now - t < 60))
  if limit ≤ cleaned.length then (false, cleaned)
  else (true, cleaned ++ [now])

/-- Sequential calls of `check_rate_limit` for one key at the given times,
threading the stored record; returns the decisions and the final record. -/
def runCalls (limit : Nat) : List ℚ → List ℚ → List Bool × List ℚ
  | record, [] => ([], record)
  | record, t :: ts =>
    let r := check_rate_limit limit record t
    let rest := runCalls limit r.2 ts
    (r.1 :: rest.1, rest.2)

/-- C5: on every call, `check_rate_limit` removes from the key's record every
timestamp older than `now` minus the 60-second window; if the pruned count is
still below the limit it appends `now` and returns `true`, otherwise it returns
`false` without recording the call. Consequently, with limit 3, four calls for
one key within 1 second yield `[true, true, true, false]`, and a further call
more than 60 seconds after the first is admitted again. -/
theorem check_rate_limit_contract :
    (∀ (limit : Nat) (record : List ℚ) (now t : ℚ), t ∈ record → t < now - 60 →
      t ∉ (check_rate_limit limit record now).2) ∧
    (∀ (limit : Nat) (record : List ℚ) (now : ℚ),
      ((check_rate_limit limit record now).1 = true ↔
        (record.filter (fun t => decide (now - t < 60))).length < limit) ∧
      ((check_rate_limit limit record now).1 = true →
        (check_rate_limit limit record now).2 =
          record.filter (fun t => decide (now - t < 60)) ++ [now]) ∧
      ((check_rate_limit limit record now).1 = false →
        (check_rate_limit limit record now).2 =
          record.filter (fun t => decide (now - t < 60)))) ∧
    (∀ t1 t2 t3 t4 t5 : ℚ, t1 ≤ t2 → t2 ≤ t3 → t3 ≤ t4 → t4 - t1 ≤ 1 →
      t4 ≤ t5 → 60 < t5 - t1 →
      (runCalls 3 [] [t1, t2, t3, t4, t5]).1 = [true, true, true, false, true]) := by
  refine ⟨?_, ?_, ?_⟩
  · intro limit record now t ht hold
    unfold check_rate_limit
    by_cases hlim : limit ≤ (record.filter (fun t => decide (now - t < 60))).length
    · simp only [hlim, if_true]
      intro hmem
      have := (List.mem_filter.mp hmem).2
      rw [decide_eq_true_eq] at this
      linarith
    · simp only [hlim, if_false]
      intro hmem
      rcases List.mem_append.mp hmem with hmem | hmem
      · have := (List.mem_filter.mp hmem).2
        rw [decide_eq_true_eq] at this
        linarith
      · have : t = now := by simpa using hmem
        linarith
  · intro limit record now
    unfold check_rate_limit
    by_cases hlim : limit ≤ (record.filter (fun t => decide (now - t < 60))).length
    · simp [hlim, Nat.not_lt.mpr hlim]
    · simp [hlim, Nat.lt_of_not_le hlim]
  · intro t1 t2 t3 t4 t5 h12 h23 h34 hspan _h45 hgap
    have k21 : t2 - t1 < 60 := by linarith
    have k31 : t3 - t1 < 60 := by linarith
    have k32 : t3 - t2 < 60 := by linarith
    have k41 : t4 - t1 < 60 := by linarith
    have k42 : t4 - t2 < 60 := by linarith
    have k43 : t4 - t3 < 60 := by linarith
    have k51 : ¬ (t5 - t1 < 60) := by linarith
    by_cases k52 : t5 - t2 < 60 <;> by_cases k53 : t5 - t3 < 60 <;>
      simp [runCalls, check_rate_limit, k21, k31, k32, k41, k42, k43, k51, k52, k53]

/-- Witness for C5: the concrete schedule 0, 1, 1, 1, 61 satisfies the
hypotheses and produces the claimed admission pattern. -/
theorem check_rate_limit_contract_witness :
    (0 : ℚ) ≤ 1 ∧ (1 : ℚ) ≤ 1 ∧ (1 : ℚ) - 0 ≤ 1 ∧ (1 : ℚ) ≤ 61 ∧
      (60 : ℚ) < 61 - 0 ∧
    (runCalls 3 [] [0, 1, 1, 1, 61]).1 = [true, true, true, false, true] := by
  refine ⟨by norm_num, by norm_num, by norm_num, by norm_num, by norm_num, ?_⟩
  exact check_rate_limit_contract.2.2 0 1 1 1 61 (by norm_num) (by norm_num)
    (by norm_num) (by norm_num) (by norm_num) (by norm_num)

/-- Boolean test that `p` occurs at the start of `s`. -/
def prefAt {α : Type} [DecidableEq α] : List α → List α → Bool
  | [], _ => true
  | _ :: _, [] => false
  | a :: p, b :: s => if a = b then prefAt p s else false

/-- Python's substring operator `in` for sequences: `p` occurs contiguously
somewhere in `s`. -/
def containsSL {α : Type} [DecidableEq α] : List α → List α → Bool
  | p, [] => p.isEmpty
  | p, b :: s => prefAt p (b :: s) || containsSL p s

/-- Python's `needle in haystack` on strings. -/
def substrS (needle hay : String) : Bool :=
  containsSL needle.toList hay.toList

/-- Python `str.lower()` (ASCII case mapping; the strings this code lowercases
are ASCII service identifiers). -/
def lowerS (s : String) : String :=
  String.mk (s.toList.map Char.toLower)

/-- A workflow node as consumed by the classifier: the `type` and `name`
fields of the JSON node object, an absent field being `none` (each use site
supplies its own `node.get(...)` default). -/
structure WFNode where
  typeF : Option String
  nameF : Option String
deriving DecidableEq

/-- The `service_mappings` table of `determine_workflow_directory`
(api_server.py lines 629-667), in dict insertion order. -/
def service_mappings : List (String × String) :=
  [("telegram", "Telegram"), ("discord", "Discord"), ("slack", "Slack"),
   ("gmail", "Gmail"), ("googlesheets", "Googlesheets"),
   ("googledrive", "Googledrive"), ("webhook", "Webhook"), ("http", "Http"),
   ("schedule", "Schedule"), ("cron", "Cron"), ("postgres", "Postgres"),
   ("mysql", "Mysqltool"), ("mongodb", "Mongodbtool"),
   ("airtable", "Airtable"), ("github", "Github"), ("gitlab", "Gitlab"),
   ("jira", "Jira"), ("openai", "Openai"), ("notion", "Notion"),
   ("shopify", "Shopify"), ("stripe", "Stripe"), ("twitter", "Twitter"),
   ("linkedin", "Linkedin"), ("facebook", "Facebook"),
   ("instagram", "Instagram"), ("whatsapp", "Whatsapp"),
   ("trello", "Trello"), ("asana", "Asana"), ("mondaycom", "Mondaycom"),
   ("dropbox", "Dropbox"), ("onedrive", "Microsoftonedrive"),
   ("outlook", "Microsoftoutlook"), ("calendly", "Calendly"),
   ("typeform", "Typeform"), ("youtube", "Youtube"),
   ("wordpress", "Wordpress"), ("woocommerce", "Woocommerce")]

/-- Python truthiness test `not primary_service` on the optional label. -/
def labelFalsy : Option String → Bool
  | none => true
  | some s => s == ""

/-- Guard `not primary_service or primary_service == "Manual"` used by the
webhook and cron/schedule checks. -/
def manualGuard (b : Option String) : Bool :=
  labelFalsy b || b == some "Manual"

/-- Guard `not primary_service or primary_service in ["Manual", "Webhook",
"Schedule"]` used by the keyword-table check. -/
def genericGuard (b : Option String) : Bool :=
  labelFalsy b || b == some "Manual" || b == some "Webhook" ||
    b == some "Schedule"

/-- Loop condition `primary_service and primary_service not in ["Manual",
"Webhook", "Schedule"]` that breaks the node scan early. -/
def breakCond (b : Option String) : Bool :=
  !labelFalsy b &&
    !(b == some "Manual" || b == some "Webhook" || b == some "Schedule")

/-- Inner `for key, directory in service_mappings.items()` loop of
`determine_workflow_directory` (api_server.py lines 686-690): on a matching
key, assign-and-break only when the guard admits it, otherwise keep looping. -/
def scanMappings : List (String × String) → String → String → Option String →
    Option String
  | [], _, _, best => best
  | kd :: rest, ty, nm, best =>
    if (substrS kd.1 ty || substrS kd.1 nm) = true then
      if genericGuard best = true then some kd.2
      else scanMappings rest ty nm best
    else scanMappings rest ty nm best

/-- Per-node body of the classification scan (api_server.py lines 671-690):
the webhook check (lowercased type or name), the cron/schedule check
(lowercased type only), and the keyword-table loop, applied in sequence on the
same iteration. -/
def classifyStep (best : Option String) (n : WFNode) : Option String :=
  let ty := lowerS (n.typeF.getD "")
  let nm := lowerS (n.nameF.getD "")
  let b1 :=
    if (substrS "webhook" ty || substrS "webhook" nm) = true then
      if manualGuard best = true then some "Webhook" else best
    else best
  let b2 :=
    if (substrS "cron" ty || substrS "schedule" ty) = true then
      if manualGuard b1 = true then some "Schedule" else b1
    else b1
  scanMappings service_mappings ty nm b2

/-- The node scan of `determine_workflow_directory` with its early `break`
(api_server.py lines 671-693). -/
def classifyScan : Option String → List WFNode → Option String
  | best, [] => best
  | best, n :: rest =>
    let b := classifyStep best n
    if breakCond b = true then b else classifyScan b rest

/-- Python `str.replace(pat, "")`: drop every non-overlapping occurrence of
`pat`, scanning left to right. The fuel argument (instantiated with the input
length) makes the definition structurally recursive and kernel-reducible. -/
def removeAllGo (pat : List Char) : Nat → List Char → List Char
  | _, [] => []
  | 0, s => s
  | fuel + 1, c :: s =>
    if prefAt pat (c :: s) = true then
      removeAllGo pat fuel ((c :: s).drop pat.length)
    else c :: removeAllGo pat fuel s

/-- Python `s.replace(pat, "")` for nonempty `pat`. -/
def removeAll (pat s : List Char) : List Char :=
  removeAllGo pat s.length s

/-- Python `.split(".")[0]`: the segment before the first dot. -/
def headSegment (s : List Char) : List Char :=
  s.takeWhile (fun c => !(c == '.'))

/-- Python `str.capitalize()`: first character uppercased, the remaining
characters lowercased (ASCII case mapping). -/
def capitalizeL : List Char → List Char
  | [] => []
  | c :: s => Char.toUpper c :: s.map Char.toLower

/-- Embedding of `determine_workflow_directory` (api_server.py lines 622-708):
empty node list is `Manual`; otherwise scan the nodes, and when the scan left
the label unset (or falsy) or `Manual`, fall back to deriving a label from the
first node's type when it contains the vendor marker `n8n-nodes-base.`,
defaulting to `Manual` otherwise. In the remaining branch the scan produced a
non-falsy label, so the `getD` default is never used. -/
def determine_workflow_directory (nodes : List WFNode) : String :=
  match nodes with
  | [] => "Manual"
  | n0 :: rest =>
    let scanned := classifyScan none (n0 :: rest)
    if (labelFalsy scanned || scanned == some "Manual") = true then
      let ft := n0.typeF.getD ""
      if substrS "n8n-nodes-base." ft = true then
        String.mk (capitalizeL (headSegment
          (removeAll "n8n-nodes-base.".toList ft.toList)))
      else "Manual"
    else scanned.getD "Manual"

/-- Modelled from the spec: the per-node proposal rule exactly as C6 words it —
webhook (in type or name) proposes `Webhook`, otherwise cron/schedule (in type
or name) proposes `Schedule`, otherwise the first matching keyword of the table
proposes its label; one uniform replacement guard (unset or generic). -/
def specClaimStep (best : Option String) (n : WFNode) : Option String :=
  let ty := lowerS (n.typeF.getD "")
  let nm := lowerS (n.nameF.getD "")
  let proposal : Option String :=
    if (substrS "webhook" ty || substrS "webhook" nm) = true then some "Webhook"
    else if (substrS "cron" ty || substrS "cron" nm || substrS "schedule" ty ||
        substrS "schedule" nm) = true then some "Schedule"
    else (service_mappings.find? (fun kd => substrS kd.1 ty || substrS kd.1 nm)).map
      Prod.snd
  match proposal with
  | none => best
  | some l => if genericGuard best = true then some l else best

/-- Modelled from the spec: the scan of C6 built from `specClaimStep`, with the
same early stop on a specific label. -/
def specClaimScan : Option String → List WFNode → Option String
  | best, [] => best
  | best, n :: rest =>
    let b := specClaimStep best n
    if breakCond b = true then b else specClaimScan b rest

/-- Modelled from the spec: the full classifier obtained by running the
claim's scan inside the code's (undisputed) wrapper. -/
def specClaimClassify (nodes : List WFNode) : String :=
  match nodes with
  | [] => "Manual"
  | n0 :: rest =>
    let scanned := specClaimScan none (n0 :: rest)
    if (labelFalsy scanned || scanned == some "Manual") = true then
      let ft := n0.typeF.getD ""
      if substrS "n8n-nodes-base." ft = true then
        String.mk (capitalizeL (headSegment
          (removeAll "n8n-nodes-base.".toList ft.toList)))
      else "Manual"
    else scanned.getD "Manual"

/-- Counterexample for C6: for the single node with empty type and name
`"cron"`, the claim's rule proposes `Schedule` (name is consulted, table is
skipped by the elif chain), while the code's cron check ignores the name and
its always-run keyword table then matches `cron` and yields the specific label
`Cron`. -/
theorem classify_scan_cex :
    determine_workflow_directory [WFNode.mk (some "") (some "cron")] = "Cron" ∧
    specClaimClassify [WFNode.mk (some "") (some "cron")] = "Schedule" := by
  refine ⟨by decide, by decide⟩

/-- When the guard rejects every assignment, the keyword loop leaves the label
unchanged. -/
theorem scanMappings_guard_false (tl : List (String × String)) (ty nm : String)
    (best : Option String) (h : genericGuard best = false) :
    scanMappings tl ty nm best = best := by
  induction tl with
  | nil => rfl
  | cons kd rest ih =>
    unfold scanMappings
    by_cases hm : (substrS kd.1 ty || substrS kd.1 nm) = true
    · simp [hm, h, ih]
    · simp [hm, ih]

/-- The keyword loop equals a single guarded assignment from the first
matching table entry. -/
theorem scanMappings_eq_find (tl : List (String × String)) (ty nm : String)
    (best : Option String) :
    scanMappings tl ty nm best =
      (match tl.find? (fun kd => substrS kd.1 ty || substrS kd.1 nm) with
        | some kd => if genericGuard best = true then some kd.2 else best
        | none => best) := by
  induction tl with
  | nil => rfl
  | cons kd rest ih =>
    unfold scanMappings
    by_cases hm : (substrS kd.1 ty || substrS kd.1 nm) = true
    · by_cases hg : genericGuard best = true
      · simp [List.find?_cons, hm, hg]
      · have hg' : genericGuard best = false := by
          revert hg; cases genericGuard best <;> simp
        simp [List.find?_cons, hm, hg,
          scanMappings_guard_false rest ty nm best hg']
    · have hm' : (substrS kd.1 ty || substrS kd.1 nm) = false := by
        revert hm; cases (substrS kd.1 ty || substrS kd.1 nm) <;> simp
      simp [List.find?_cons, hm', ih]

/-- Collapsing a guarded-assignment conditional into a conjunction. -/
theorem ite_guard (c g : Bool) (v x : Option String) :
    (if c = true then (if g = true then v else x) else x) =
      (if (c && g) = true then v else x) := by
  cases c <;> cases g <;> simp

/-- The amended per-node rule: the three checks run independently on every
node (no elif chain); the webhook proposal (type or name) and the schedule
proposal (type only) each replace the label only when it is unset or
`"Manual"`, and the keyword table is always scanned, its first matching entry
replacing the label when it is unset or one of the three generic
placeholders. -/
def amendedSpecStep (best : Option String) (n : WFNode) : Option String :=
  let ty := lowerS (n.typeF.getD "")
  let nm := lowerS (n.nameF.getD "")
  let b1 :=
    if ((substrS "webhook" ty || substrS "webhook" nm) && manualGuard best) = true
    then some "Webhook" else best
  let b2 :=
    if ((substrS "cron" ty || substrS "schedule" ty) && manualGuard b1) = true
    then some "Schedule" else b1
  match service_mappings.find? (fun kd => substrS kd.1 ty || substrS kd.1 nm) with
  | some kd => if genericGuard b2 = true then some kd.2 else b2
  | none => b2

/-- The scan built from the amended per-node rule, with the same early stop. -/
def amendedSpecScan : Option String → List WFNode → Option String
  | best, [] => best
  | best, n :: rest =>
    let b := amendedSpecStep best n
    if breakCond b = true then b else amendedSpecScan b rest

/-- The full classifier built from the amended scan. -/
def amendedSpecClassify (nodes : List WFNode) : String :=
  match nodes with
  | [] => "Manual"
  | n0 :: rest =>
    let scanned := amendedSpecScan none (n0 :: rest)
    if (labelFalsy scanned || scanned == some "Manual") = true then
      let ft := n0.typeF.getD ""
      if substrS "n8n-nodes-base." ft = true then
        String.mk (capitalizeL (headSegment
          (removeAll "n8n-nodes-base.".toList ft.toList)))
      else "Manual"
    else scanned.getD "Manual"

/-- The code's per-node body realizes the amended rule. -/
theorem classifyStep_eq_amended (best : Option String) (n : WFNode) :
    classifyStep best n = amendedSpecStep best n := by
  unfold classifyStep amendedSpecStep
  simp only [ite_guard, scanMappings_eq_find]

/-- Specific labels disable every replacement guard. -/
theorem specific_guards_false (best : Option String) (h : breakCond best = true) :
    manualGuard best = false ∧ genericGuard best = false := by
  unfold breakCond at h
  obtain ⟨h1, h2⟩ := Bool.and_eq_true _ _ |>.mp h
  rw [Bool.not_eq_true'] at h1 h2
  obtain ⟨h3, h4⟩ := Bool.or_eq_false_iff.mp h2
  obtain ⟨h5, h6⟩ := Bool.or_eq_false_iff.mp h3
  constructor
  · simp [manualGuard, h1, h5]
  · simp [genericGuard, h1, h5, h6, h4]

/-- Once the label is specific, one further node leaves it unchanged. -/
theorem classifyStep_keeps_specific (best : Option String) (n : WFNode)
    (h : breakCond best = true) : classifyStep best n = best := by
  obtain ⟨hman, hgen⟩ := specific_guards_false best h
  unfold classifyStep
  simp [hman, hgen, scanMappings_guard_false _ _ _ _ hgen]

/-- Once the label is specific, the whole scan leaves it unchanged (the early
break). -/
theorem classifyScan_keeps_specific (best : Option String) (nodes : List WFNode)
    (h : breakCond best = true) : classifyScan best nodes = best := by
  cases nodes with
  | nil => rfl
  | cons n rest =>
    unfold classifyScan
    rw [classifyStep_keeps_specific best n h]
    simp [h]

/-- The code's scan realizes the amended scan. -/
theorem classifyScan_eq_amended (nodes : List WFNode) :
    ∀ best, classifyScan best nodes = amendedSpecScan best nodes := by
  induction nodes with
  | nil => intro best; rfl
  | cons n rest ih =>
    intro best
    unfold classifyScan amendedSpecScan
    rw [classifyStep_eq_amended]
    by_cases hb : breakCond (amendedSpecStep best n) = true
    · simp [hb]
    · simp [hb, ih]

/-- C6 amended: the classifier's scan behaves as follows — on each node the
webhook check (lowercased type or name) proposes `Webhook` and the
cron/schedule check (lowercased type only) proposes `Schedule`, each replacing
the current label only when it is unset or `Manual`; independently of those two
checks the fixed ordered keyword table is always scanned and its first matching
keyword's label replaces the current label when it is unset or one of the three
generic placeholders `Manual`/`Webhook`/`Schedule`; once the label holds any
other (specific) value, no proposal replaces it and scanning stops early. -/
theorem classify_scan_amended :
    (∀ nodes, determine_workflow_directory nodes = amendedSpecClassify nodes) ∧
    (∀ best n, breakCond best = true → classifyStep best n = best) ∧
    (∀ best nodes, breakCond best = true → classifyScan best nodes = best) := by
  refine ⟨?_, classifyStep_keeps_specific, classifyScan_keeps_specific⟩
  intro nodes
  cases nodes with
  | nil => rfl
  | cons n0 rest =>
    simp only [determine_workflow_directory, amendedSpecClassify]
    rw [classifyScan_eq_amended]

/-- Witness for C6 amended: a concrete specific label survives a scan, and the
classifier agrees with the amended description on a concrete document. -/
theorem classify_scan_amended_witness :
    breakCond (some "Slack") = true ∧
    classifyScan (some "Slack") [WFNode.mk (some "") (some "cron")] =
      some "Slack" ∧
    determine_workflow_directory [WFNode.mk (some "") (some "cron")] =
      amendedSpecClassify [WFNode.mk (some "") (some "cron")] := by
  refine ⟨by decide, ?_, ?_⟩
  · exact classify_scan_amended.2.2 (some "Slack")
      [WFNode.mk (some "") (some "cron")] (by decide)
  · exact classify_scan_amended.1 [WFNode.mk (some "") (some "cron")]

/-- Modelled from the spec: the fallback label derivation as C7 words it — for
a non-empty first-node type, strip the vendor-namespace prefix, take the
segment before the next separator and capitalize its first letter; `Manual`
only for an empty type. -/
def specC7Fallback (t : String) : String :=
  if t == "" then "Manual"
  else String.mk (capitalizeL (headSegment
    (removeAll "n8n-nodes-base.".toList t.toList)))

/-- Counterexample for C7: for the single node of non-empty type `"custom"`
(no keyword matches, so the scan leaves the label unset), the claim's
derivation yields `Custom`, but the code returns `Manual` because the type
lacks the `n8n-nodes-base.` marker. -/
theorem classify_fallback_cex :
    determine_workflow_directory [WFNode.mk (some "custom") (some "")] =
      "Manual" ∧
    specC7Fallback "custom" = "Custom" := by
  refine ⟨by decide, by decide⟩

/-- C7 amended: when the scan leaves the label unset (falsy) or `Manual`, the
classifier derives the label from the first node's type only when that type
contains the vendor marker `n8n-nodes-base.` — removing every occurrence of
the marker, taking the segment before the next `.` and capitalizing (Python
`str.capitalize`, which also lowercases the rest); otherwise, including for an
empty type or any type lacking the marker, it falls back to `Manual`. -/
theorem classify_fallback_amended (n0 : WFNode) (rest : List WFNode)
    (h : (labelFalsy (classifyScan none (n0 :: rest)) ||
      classifyScan none (n0 :: rest) == some "Manual") = true) :
    determine_workflow_directory (n0 :: rest) =
      (if substrS "n8n-nodes-base." (n0.typeF.getD "") = true then
        String.mk (capitalizeL (headSegment
          (removeAll "n8n-nodes-base.".toList (n0.typeF.getD "").toList)))
      else "Manual") := by
  unfold determine_workflow_directory
  simp only [h, if_true]

/-- Witness for C7 amended: a first node of type `n8n-nodes-base.foo` leaves
the scan unset and classifies as `Foo` via the derivation. -/
theorem classify_fallback_amended_witness :
    (labelFalsy (classifyScan none [WFNode.mk (some "n8n-nodes-base.foo") (some "")]) ||
      classifyScan none [WFNode.mk (some "n8n-nodes-base.foo") (some "")] ==
        some "Manual") = true ∧
    determine_workflow_directory
      [WFNode.mk (some "n8n-nodes-base.foo") (some "")] = "Foo" := by
  refine ⟨by decide, ?_⟩
  rw [classify_fallback_amended (WFNode.mk (some "n8n-nodes-base.foo") (some ""))
    [] (by decide)]
  decide

/-- JSON-like values for the `connections` mapping consumed by
`generate_mermaid_diagram`; object fields keep dict insertion order. -/
inductive JVal where
  | jnull
  | jbool (b : Bool)
  | jnum (n : Int)
  | jstr (s : String)
  | jarr (xs : List JVal)
  | jobj (fields : List (String × JVal))

/-- Dict lookup on a parsed JSON object (keys are unique after parsing). -/
def jobjGet : List (String × JVal) → String → Option JVal
  | [], _ => none
  | f :: fs, k => if f.1 = k then some f.2 else jobjGet fs k

/-- The `mermaid_ids` dictionary (api_server.py lines 765-769): synthetic
identifiers `node0, node1, ...` keyed by `node.get("name", f"Node {i}")`; a
later node with the same name overwrites the earlier mapping. -/
def mermaidIds (nodes : List WFNode) : String → Option String :=
  nodes.enum.foldl
    (fun m p k =>
      if k = p.2.nameF.getD ("Node " ++ toString p.1) then
        some ("node" ++ toString p.1)
      else m k)
    (fun _ => none)

/-- Style class from the lowercased type (vendor prefix already removed),
first matching rule wins (api_server.py lines 780-791). -/
def nodeStyle (t : String) : String :=
  let lt := lowerS t
  if (substrS "trigger" lt || substrS "webhook" lt || substrS "cron" lt) = true then
    "fill:#b3e0ff,stroke:#0066cc"
  else if (substrS "if" lt || substrS "switch" lt) = true then
    "fill:#ffffb3,stroke:#e6e600"
  else if (substrS "function" lt || substrS "code" lt) = true then
    "fill:#d9b3ff,stroke:#6600cc"
  else if substrS "error" lt = true then
    "fill:#ffb3b3,stroke:#cc0000"
  else
    "fill:#d9d9d9,stroke:#666666"

/-- Replace every double quote by a single quote (codepoints 34 and 39),
modelling `node_name.replace('"', "'")`. -/
def quoteFix (s : String) : String :=
  String.mk (s.toList.map (fun c => if c.toNat = 34 then Char.ofNat 39 else c))

/-- Node declaration and style lines (api_server.py lines 775-798). A node
whose `name` field is absent was keyed as `Node i` when building the table but
is looked up here as `Unnamed`, which in Python raises `KeyError`; the `getD`
default stands for that unreachable-on-well-formed-input branch. -/
def nodeLines (ids : String → Option String) : List WFNode → List String
  | [] => []
  | n :: rest =>
    let name := n.nameF.getD "Unnamed"
    let nid := (ids name).getD ""
    let ntype := String.mk
      (removeAll "n8n-nodes-base.".toList (n.typeF.getD "").toList)
    let label := quoteFix name ++ "<br>(" ++ quoteFix ntype ++ ")"
    ("  " ++ nid ++ "[\"" ++ label ++ "\"]") ::
      ("  style " ++ nid ++ " " ++ nodeStyle ntype) :: nodeLines ids rest

/-- Innermost loop over one output port's connection entries (api_server.py
lines 812-824): entries that are not objects, lack a string `node` field, or
name an unknown target are skipped. -/
def targetLines (ids : String → Option String) (srcId : String) (multi : Bool)
    (i : Nat) : List JVal → List String
  | [] => []
  | c :: cs =>
    (match c with
     | JVal.jobj fields =>
       match jobjGet fields "node" with
       | some (JVal.jstr tname) =>
         match ids tname with
         | some tid =>
           ["  " ++ srcId ++
             (if multi then " -->|" ++ toString i ++ "| " else " --> ") ++ tid]
         | none => []
       | _ => []
     | _ => []) ++ targetLines ids srcId multi i cs

/-- Loop over the enumerated output ports (api_server.py lines 808-810):
ports that are not lists are skipped. -/
def portLines (ids : String → Option String) (srcId : String) (multi : Bool) :
    Nat → List JVal → List String
  | _, [] => []
  | i, p :: ps =>
    (match p with
     | JVal.jarr conns => targetLines ids srcId multi i conns
     | _ => []) ++ portLines ids srcId multi (i + 1) ps

/-- Loop over `connections.items()` (api_server.py lines 801-824): sources
unknown to the identifier table are skipped entirely, as are values that are
not objects carrying a `main` list. -/
def edgeLines (ids : String → Option String) : List (String × JVal) → List String
  | [] => []
  | sc :: rest =>
    (match ids sc.1 with
     | none => []
     | some srcId =>
       match sc.2 with
       | JVal.jobj fields =>
         match jobjGet fields "main" with
         | some (JVal.jarr mains) =>
           portLines ids srcId (decide (1 < mains.length)) 0 mains
         | _ => []
       | _ => []) ++ edgeLines ids rest

/-- Embedding of `generate_mermaid_diagram` (api_server.py lines 759-827):
empty node sequence returns the fixed placeholder text; otherwise the header,
the node declaration/style lines and the edge lines are joined with
newlines. -/
def generate_mermaid_diagram (nodes : List WFNode)
    (connections : List (String × JVal)) : String :=
  match nodes with
  | [] => "graph TD\n  EmptyWorkflow[No nodes found in workflow]"
  | _ =>
    let ids := mermaidIds nodes
    String.intercalate "\n"
      (("graph TD" :: nodeLines ids nodes) ++ edgeLines ids connections)

/-- Number of newline-separated lines of a rendered text. -/
def lineCount (s : String) : Nat :=
  1 + s.toList.countP (fun c => c == '\n')

/-- Counterexample for C8: on the empty node sequence the renderer returns the
placeholder text `graph TD\n  EmptyWorkflow[...]`, which is two lines of text,
not one. -/
theorem mermaid_empty_cex :
    generate_mermaid_diagram [] [] =
      "graph TD\n  EmptyWorkflow[No nodes found in workflow]" ∧
    lineCount (generate_mermaid_diagram [] []) ≠ 1 := by
  refine ⟨by decide, by decide⟩

/-- C8 amended: for the empty node sequence, `generate_mermaid_diagram`
returns a fixed two-line placeholder (the `graph TD` header plus one
placeholder node line), regardless of the connections argument. -/
theorem mermaid_empty_amended (connections : List (String × JVal)) :
    generate_mermaid_diagram [] connections =
      "graph TD\n  EmptyWorkflow[No nodes found in workflow]" ∧
    lineCount (generate_mermaid_diagram [] connections) = 2 :=
  ⟨rfl, rfl⟩


/-- Value of an ASCII hex digit, covering both letter cases like the
`_hextobyte` table of `urllib.parse`. -/
def hexVal (c : Char) : Option Nat :=
  if '0' ≤ c ∧ c ≤ '9' then some (c.toNat - 48)
  else if 'a' ≤ c ∧ c ≤ 'f' then some (c.toNat - 97 + 10)
  else if 'A' ≤ c ∧ c ≤ 'F' then some (c.toNat - 65 + 10)
  else none

/-- One token of the percent-decoding scan: a byte destined for UTF-8
decoding (from a `%XX` triple or a literal ASCII character) or a literal
non-ASCII character passed through outside the byte stream (CPython splits the
input into ASCII and non-ASCII runs and percent-decodes only the former). -/
inductive Tok where
  | byte (b : Nat)
  | raw (c : Char)
deriving DecidableEq

/-- Handling of the characters after a `%`: two hex digits become the
corresponding byte and are consumed; otherwise the `%` itself is kept as a
literal percent byte and nothing further is consumed. -/
def pctStep : List Char → Tok × List Char
  | h1 :: h2 :: r2 =>
    match hexVal h1, hexVal h2 with
    | some a, some b => (Tok.byte (16 * a + b), r2)
    | _, _ => (Tok.byte 37, h1 :: h2 :: r2)
  | rest => (Tok.byte 37, rest)

/-- Scanning phase of `urllib.parse.unquote`, with a fuel argument
(instantiated with the input length, ample since every step consumes at least
one character) keeping the recursion structural and kernel-reducible. -/
def tokenizeGo : Nat → List Char → List Tok
  | _, [] => []
  | 0, _ => []
  | fuel + 1, c :: rest =>
    if c = '%' then (pctStep rest).1 :: tokenizeGo fuel (pctStep rest).2
    else if c.toNat < 128 then Tok.byte c.toNat :: tokenizeGo fuel rest
    else Tok.raw c :: tokenizeGo fuel rest

/-- Tokenization of a string for percent-decoding. -/
def tokenize (s : List Char) : List Tok := tokenizeGo s.length s

/-- UTF-8 continuation-byte test (128 to 191). -/
def contOk (b : Nat) : Bool := decide (128 ≤ b ∧ b < 192)

/-- One strict UTF-8 decoding step on the token stream: given a lead byte and
the following tokens, produce the decoded character and the remaining tokens.
Stray continuation bytes, truncated sequences, overlong encodings, surrogates
and code points beyond the Unicode range are errors, exactly as in CPython
strict decoding; a literal non-ASCII token acts as a chunk boundary that a
multi-byte sequence may not straddle. -/
def utf8Step (b : Nat) (ts : List Tok) : Option (Char × List Tok) :=
  if b < 128 then some (Char.ofNat b, ts)
  else if b < 192 then none
  else if b < 224 then
    match ts with
    | Tok.byte b1 :: ts2 =>
      if contOk b1 = true then
        if (b - 192) * 64 + (b1 - 128) < 128 then none
        else some (Char.ofNat ((b - 192) * 64 + (b1 - 128)), ts2)
      else none
    | _ => none
  else if b < 240 then
    match ts with
    | Tok.byte b1 :: Tok.byte b2 :: ts2 =>
      if (contOk b1 && contOk b2) = true then
        if (b - 224) * 4096 + (b1 - 128) * 64 + (b2 - 128) < 2048 ∨
            (55296 ≤ (b - 224) * 4096 + (b1 - 128) * 64 + (b2 - 128) ∧
              (b - 224) * 4096 + (b1 - 128) * 64 + (b2 - 128) < 57344) then none
        else some (Char.ofNat ((b - 224) * 4096 + (b1 - 128) * 64 + (b2 - 128)), ts2)
      else none
    | _ => none
  else if b < 248 then
    match ts with
    | Tok.byte b1 :: Tok.byte b2 :: Tok.byte b3 :: ts2 =>
      if (contOk b1 && contOk b2 && contOk b3) = true then
        if (b - 240) * 262144 + (b1 - 128) * 4096 + (b2 - 128) * 64 + (b3 - 128) < 65536 ∨
            1114112 ≤ (b - 240) * 262144 + (b1 - 128) * 4096 + (b2 - 128) * 64 + (b3 - 128) then none
        else some
          (Char.ofNat ((b - 240) * 262144 + (b1 - 128) * 4096 + (b2 - 128) * 64 + (b3 - 128)), ts2)
      else none
    | _ => none
  else none

/-- UTF-8 decoding of the whole token stream (raw non-ASCII characters pass
through), with a structural fuel argument; `none` models
`UnicodeDecodeError`. -/
def decodeToksGo : Nat → List Tok → Option (List Char)
  | _, [] => some []
  | 0, _ => none
  | fuel + 1, Tok.raw c :: ts => (decodeToksGo fuel ts).map (fun cs => c :: cs)
  | fuel + 1, Tok.byte b :: ts =>
    match utf8Step b ts with
    | some st => (decodeToksGo fuel st.2).map (fun cs => st.1 :: cs)
    | none => none

/-- Strict decoding of a token stream, with fuel set to its length (each step
consumes at least one token). -/
def decodeToks (ts : List Tok) : Option (List Char) :=
  decodeToksGo ts.length ts

/-- Model of `urllib.parse.unquote(s, errors="strict")`: percent-triples and
literal ASCII characters become bytes, byte runs are UTF-8-decoded strictly,
non-ASCII literals pass through; `none` models the decode error the caller
catches. -/
def pUnquote (s : List Char) : Option (List Char) :=
  decodeToks (tokenize s)

/-- Iterated decoding: `iterDecode k` applies `pUnquote` `k` times, stopping
at the first error, like the decode loop of `validate_filename`. -/
def iterDecode : Nat → List Char → Option (List Char)
  | 0, s => some s
  | k + 1, s => (pUnquote s).bind (iterDecode k)

/-- The `dangerous_patterns` list of `validate_filename` (api_server.py lines
111-130), in source order, as character lists. -/
def dangerous_patterns : List (List Char) :=
  [['.', '.'], ['.', '.', '\\'], ['.', '.', '/'], ['\\'], ['/'],
   ['\x00'], ['\n'], ['\r'], ['~'], [':'],
   ['|'], ['<'], ['>'], ['*'], ['?'], ['$'],
   [';'], ['&']]

/-- Character class of the validation regex: ASCII letters, digits,
underscore and hyphen. -/
def isSafeChar (c : Char) : Bool :=
  decide (('a' ≤ c ∧ c ≤ 'z') ∨ ('A' ≤ c ∧ c ≤ 'Z') ∨ ('0' ≤ c ∧ c ≤ '9') ∨
    c = '_' ∨ c = '-')

/-- Fully anchored match of the validation regex: a nonempty run of safe
characters followed by the literal suffix `.json`, nothing else. -/
def anchoredMatch (d : List Char) : Bool :=
  decide (5 < d.length) && (d.drop (d.length - 5) == ".json".toList) &&
    (d.take (d.length - 5)).all isSafeChar

/-- Python `re.match` of the validation regex as a boolean: the dollar anchor
also matches just before one trailing newline. -/
def pyMatch (d : List Char) : Bool :=
  anchoredMatch d ||
    (match d.getLast? with
     | some c => (c == '\n') && anchoredMatch d.dropLast
     | none => false)

/-- Python `str.endswith`. -/
def endsWithL (suf s : List Char) : Bool :=
  prefAt suf.reverse s.reverse

/-- The checks `validate_filename` applies to the fully decoded string
(api_server.py lines 110-152): dangerous substring patterns, absolute-path
prefixes, a Windows drive letter at index 1, the regex, and the `.json`
suffix. -/
def validateDecoded (decoded : List Char) : Bool :=
  if dangerous_patterns.any (fun p => containsSL p decoded) then false
  else if prefAt ['/'] decoded || prefAt ['\\'] decoded then false
  else if decide (2 ≤ decoded.length) && (decoded.getD 1 ' ' == ':') then false
  else if !pyMatch decoded then false
  else if !endsWithL ".json".toList decoded then false
  else true

/-- Embedding of `validate_filename` (api_server.py lines 97-152): decode up
to three times (any decode error rejects), then run the checks on the decoded
string. -/
def validate_filename (filename : List Char) : Bool :=
  match iterDecode 3 filename with
  | none => false
  | some decoded => validateDecoded decoded




theorem containsSL_nil_left {α : Type} [DecidableEq α] (l : List α) :
    containsSL ([] : List α) l = true := by
  cases l <;> simp [containsSL, prefAt, List.isEmpty]

theorem prefAt_cons_iff {α : Type} [DecidableEq α] (a b : α) (p s : List α) :
    prefAt (a :: p) (b :: s) = true ↔ a = b ∧ prefAt p s = true := by
  by_cases h : a = b <;> simp [prefAt, h]

theorem prefAt_contains {α : Type} [DecidableEq α] (p s : List α)
    (h : prefAt p s = true) : containsSL p s = true := by
  cases s with
  | nil =>
    cases p with
    | nil => simp [containsSL, List.isEmpty]
    | cons a q => simp [prefAt] at h
  | cons b s' => simp [containsSL, h]

theorem contains_cons_elim {α : Type} [DecidableEq α] {p : List α} {x : α}
    {l : List α} (h : containsSL p (x :: l) = true) :
    prefAt p (x :: l) = true ∨ containsSL p l = true := by
  simpa [containsSL] using h

theorem contains_cons_intro {α : Type} [DecidableEq α] {p : List α} {x : α}
    {l : List α} (h : containsSL p l = true) : containsSL p (x :: l) = true := by
  simp [containsSL, h]

theorem contains_skip_head {α : Type} [DecidableEq α] {a x : α} {p l : List α}
    (h : containsSL (a :: p) (x :: l) = true) (hne : a ≠ x) :
    containsSL (a :: p) l = true := by
  rcases contains_cons_elim h with h' | h'
  · rw [prefAt_cons_iff] at h'
    exact absurd h'.1 hne
  · exact h'

theorem contains_single_of_mem {α : Type} [DecidableEq α] {a : α} {l : List α}
    (h : a ∈ l) : containsSL [a] l = true := by
  induction l with
  | nil => simp at h
  | cons b l' ih =>
    rcases List.mem_cons.mp h with h | h
    · subst h
      simp [containsSL, prefAt]
    · exact contains_cons_intro (ih h)

theorem prefAt_append_self {α : Type} [DecidableEq α] (p r : List α) :
    prefAt p (p ++ r) = true := by
  induction p with
  | nil => simp [prefAt]
  | cons a q ih => simp [prefAt, ih]


def tokBytes (p : List Char) : List Tok := p.map (fun c => Tok.byte c.toNat)

theorem tokenizeGo_pref (p : List Char)
    (hgood : ∀ c ∈ p, c.toNat < 128 ∧ c ≠ '%' ∧ hexVal c = none) :
    ∀ (fuel : Nat) (s : List Char), s.length ≤ fuel → prefAt p s = true →
      prefAt (tokBytes p) (tokenizeGo fuel s) = true := by
  induction p with
  | nil => intro fuel s _ _; simp [tokBytes, prefAt]
  | cons a p' ih =>
    intro fuel s hlen hpre
    cases s with
    | nil => simp [prefAt] at hpre
    | cons c rest =>
      rw [prefAt_cons_iff] at hpre
      obtain ⟨rfl, hpre'⟩ := hpre
      obtain ⟨h128, hpct, _⟩ := hgood a (List.mem_cons_self a p')
      cases fuel with
      | zero => simp at hlen
      | succ f =>
        rw [tokenizeGo, if_neg hpct, if_pos h128]
        simp only [tokBytes, List.map_cons]
        rw [prefAt_cons_iff]
        refine ⟨rfl, ?_⟩
        have hg' : ∀ c ∈ p', c.toNat < 128 ∧ c ≠ '%' ∧ hexVal c = none :=
          fun c hc => hgood c (List.mem_cons_of_mem a hc)
        have := ih hg' f rest (by simp at hlen; omega) hpre'
        simpa [tokBytes] using this

theorem tokenizeGo_contains (a : Char) (p' : List Char)
    (hgood : ∀ c ∈ a :: p', c.toNat < 128 ∧ c ≠ '%' ∧ hexVal c = none) :
    ∀ (fuel : Nat) (s : List Char), s.length ≤ fuel →
      containsSL (a :: p') s = true →
      containsSL (tokBytes (a :: p')) (tokenizeGo fuel s) = true := by
  intro fuel
  induction fuel with
  | zero =>
    intro s hlen hc
    have hs : s = [] := List.length_eq_zero.mp (Nat.le_zero.mp hlen)
    subst hs
    simp [containsSL, List.isEmpty] at hc
  | succ f ih =>
    intro s hlen hc
    obtain ⟨ha128, hapct, hahex⟩ := hgood a (List.mem_cons_self a p')
    cases s with
    | nil => simp [containsSL, List.isEmpty] at hc
    | cons c rest =>
      rcases contains_cons_elim hc with hpre | htail
      · exact prefAt_contains _ _
          (tokenizeGo_pref (a :: p') hgood (f + 1) (c :: rest) hlen hpre)
      · by_cases hpct : c = '%'
        · subst hpct
          rw [tokenizeGo, if_pos rfl]
          cases rest with
          | nil => simp [containsSL, List.isEmpty] at htail
          | cons h1 rest1 =>
            cases rest1 with
            | nil =>
              simp only [pctStep]
              exact contains_cons_intro (ih [h1] (by simp at hlen ⊢; omega) htail)
            | cons h2 r2 =>
              cases hh1 : hexVal h1 with
              | none =>
                simp only [pctStep, hh1]
                exact contains_cons_intro
                  (ih (h1 :: h2 :: r2) (by simp at hlen ⊢; omega) htail)
              | some a1 =>
                cases hh2 : hexVal h2 with
                | none =>
                  simp only [pctStep, hh1, hh2]
                  exact contains_cons_intro
                    (ih (h1 :: h2 :: r2) (by simp at hlen ⊢; omega) htail)
                | some a2 =>
                  simp only [pctStep, hh1, hh2]
                  have hne1 : a ≠ h1 := by
                    intro he
                    rw [he, hh1] at hahex
                    exact Option.noConfusion hahex
                  have hne2 : a ≠ h2 := by
                    intro he
                    rw [he, hh2] at hahex
                    exact Option.noConfusion hahex
                  have h1' := contains_skip_head htail hne1
                  have h2' := contains_skip_head h1' hne2
                  exact contains_cons_intro
                    (ih r2 (by simp at hlen ⊢; omega) h2')
        · by_cases h128 : c.toNat < 128
          · rw [tokenizeGo, if_neg hpct, if_pos h128]
            exact contains_cons_intro (ih rest (by simp at hlen ⊢; omega) htail)
          · rw [tokenizeGo, if_neg hpct, if_neg h128]
            exact contains_cons_intro (ih rest (by simp at hlen ⊢; omega) htail)


theorem utf8Step_ascii (b : Nat) (hb : b < 128) (ts : List Tok) :
    utf8Step b ts = some (Char.ofNat b, ts) := by
  unfold utf8Step
  rw [if_pos hb]

theorem utf8Step_shape (b : Nat) (ts : List Tok) (ch : Char) (ts2 : List Tok)
    (h : utf8Step b ts = some (ch, ts2)) :
    ts2 = ts ∨
    (∃ b1 ts', ts = Tok.byte b1 :: ts' ∧ 128 ≤ b1 ∧
      (ts2 = ts' ∨
       (∃ b2 ts'', ts' = Tok.byte b2 :: ts'' ∧ 128 ≤ b2 ∧
         (ts2 = ts'' ∨
          (∃ b3 ts3, ts'' = Tok.byte b3 :: ts3 ∧ 128 ≤ b3 ∧ ts2 = ts3))))) := by
  unfold utf8Step at h
  by_cases h1 : b < 128
  · rw [if_pos h1] at h
    simp only [Option.some.injEq, Prod.mk.injEq] at h
    exact Or.inl h.2.symm
  · rw [if_neg h1] at h
    by_cases h2 : b < 192
    · rw [if_pos h2] at h
      exact absurd h (by simp)
    · rw [if_neg h2] at h
      by_cases h3 : b < 224
      · rw [if_pos h3] at h
        cases ts with
        | nil => exact absurd h (by simp)
        | cons t ts' =>
          cases t with
          | raw c => exact absurd h (by simp)
          | byte b1 =>
            by_cases hc1 : contOk b1 = true
            · have hb1 : 128 ≤ b1 := by
                have := hc1
                simp [contOk] at this
                exact this.1
              by_cases hov : (b - 192) * 64 + (b1 - 128) < 128
              · simp [hc1, hov] at h
              · simp only [hc1, if_true, hov, if_false, Option.some.injEq,
                  Prod.mk.injEq] at h
                exact Or.inr ⟨b1, ts', rfl, hb1, Or.inl h.2.symm⟩
            · simp [hc1] at h
      · rw [if_neg h3] at h
        by_cases h4 : b < 240
        · rw [if_pos h4] at h
          cases ts with
          | nil => exact absurd h (by simp)
          | cons t ts' =>
            cases t with
            | raw c => exact absurd h (by simp)
            | byte b1 =>
              cases ts' with
              | nil => exact absurd h (by simp)
              | cons t2 ts'' =>
                cases t2 with
                | raw c => exact absurd h (by simp)
                | byte b2 =>
                  by_cases hc1 : (contOk b1 && contOk b2) = true
                  · obtain ⟨hg1, hg2⟩ := Bool.and_eq_true _ _ |>.mp hc1
                    have hb1 : 128 ≤ b1 := by
                      have := hg1; simp [contOk] at this; exact this.1
                    have hb2 : 128 ≤ b2 := by
                      have := hg2; simp [contOk] at this; exact this.1
                    by_cases hov : (b - 224) * 4096 + (b1 - 128) * 64 + (b2 - 128) < 2048 ∨
                        (55296 ≤ (b - 224) * 4096 + (b1 - 128) * 64 + (b2 - 128) ∧
                          (b - 224) * 4096 + (b1 - 128) * 64 + (b2 - 128) < 57344)
                    · simp [hc1, hov] at h
                    · simp only [hc1, if_true, hov, if_false, Option.some.injEq,
                        Prod.mk.injEq] at h
                      exact Or.inr ⟨b1, Tok.byte b2 :: ts'', rfl, hb1,
                        Or.inr ⟨b2, ts'', rfl, hb2, Or.inl h.2.symm⟩⟩
                  · simp [hc1] at h
        · rw [if_neg h4] at h
          by_cases h5 : b < 248
          · rw [if_pos h5] at h
            cases ts with
            | nil => exact absurd h (by simp)
            | cons t ts' =>
              cases t with
              | raw c => exact absurd h (by simp)
              | byte b1 =>
                cases ts' with
                | nil => exact absurd h (by simp)
                | cons t2 ts'' =>
                  cases t2 with
                  | raw c => exact absurd h (by simp)
                  | byte b2 =>
                    cases ts'' with
                    | nil => exact absurd h (by simp)
                    | cons t3 ts3 =>
                      cases t3 with
                      | raw c => exact absurd h (by simp)
                      | byte b3 =>
                        by_cases hc1 : (contOk b1 && contOk b2 && contOk b3) = true
                        · obtain ⟨hg12, hg3⟩ := Bool.and_eq_true _ _ |>.mp hc1
                          obtain ⟨hg1, hg2⟩ := Bool.and_eq_true _ _ |>.mp hg12
                          have hb1 : 128 ≤ b1 := by
                            have := hg1; simp [contOk] at this; exact this.1
                          have hb2 : 128 ≤ b2 := by
                            have := hg2; simp [contOk] at this; exact this.1
                          have hb3 : 128 ≤ b3 := by
                            have := hg3; simp [contOk] at this; exact this.1
                          by_cases hov : (b - 240) * 262144 + (b1 - 128) * 4096 +
                                (b2 - 128) * 64 + (b3 - 128) < 65536 ∨
                              1114112 ≤ (b - 240) * 262144 + (b1 - 128) * 4096 +
                                (b2 - 128) * 64 + (b3 - 128)
                          · simp [hc1, hov] at h
                          · simp only [hc1, if_true, hov, if_false,
                              Option.some.injEq, Prod.mk.injEq] at h
                            exact Or.inr ⟨b1, Tok.byte b2 :: Tok.byte b3 :: ts3,
                              rfl, hb1, Or.inr ⟨b2, Tok.byte b3 :: ts3, rfl, hb2,
                                Or.inr ⟨b3, ts3, rfl, hb3, h.2.symm⟩⟩⟩
                        · simp [hc1] at h
          · rw [if_neg h5] at h
            exact absurd h (by simp)


theorem decodeToksGo_pref (p : List Char) (hgood : ∀ c ∈ p, c.toNat < 128) :
    ∀ (fuel : Nat) (ts : List Tok) (out : List Char),
      decodeToksGo fuel ts = some out → prefAt (tokBytes p) ts = true →
      prefAt p out = true := by
  induction p with
  | nil => intro fuel ts out _ _; simp [prefAt]
  | cons a p' ih =>
    intro fuel ts out hdec hpre
    cases ts with
    | nil => simp [tokBytes, prefAt] at hpre
    | cons t ts' =>
      simp only [tokBytes, List.map_cons] at hpre
      rw [prefAt_cons_iff] at hpre
      obtain ⟨hat, hpre'⟩ := hpre
      subst hat
      cases fuel with
      | zero => simp [decodeToksGo] at hdec
      | succ f =>
        rw [decodeToksGo,
          utf8Step_ascii a.toNat (hgood a (List.mem_cons_self a p')) ts'] at hdec
        simp only [Option.map_eq_some'] at hdec
        obtain ⟨out', hdec', hout⟩ := hdec
        subst hout
        rw [Char.ofNat_toNat, prefAt_cons_iff]
        refine ⟨rfl, ih (fun c hc => hgood c (List.mem_cons_of_mem a hc)) f ts' out' hdec' ?_⟩
        simpa [tokBytes] using hpre'

theorem contains_skip_byte (a : Char) (p' : List Char) (ha : a.toNat < 128)
    (b1 : Nat) (hb1 : 128 ≤ b1) (l : List Tok)
    (h : containsSL (tokBytes (a :: p')) (Tok.byte b1 :: l) = true) :
    containsSL (tokBytes (a :: p')) l = true := by
  have hne : Tok.byte a.toNat ≠ Tok.byte b1 := by
    intro he
    injection he with hv
    omega
  have h' : containsSL (Tok.byte a.toNat :: tokBytes p') (Tok.byte b1 :: l) = true := by
    simpa [tokBytes] using h
  simpa [tokBytes] using contains_skip_head h' hne

theorem decodeToksGo_contains (a : Char) (p' : List Char)
    (hgood : ∀ c ∈ a :: p', c.toNat < 128) :
    ∀ (fuel : Nat) (ts : List Tok) (out : List Char),
      decodeToksGo fuel ts = some out →
      containsSL (tokBytes (a :: p')) ts = true →
      containsSL (a :: p') out = true := by
  intro fuel
  induction fuel with
  | zero =>
    intro ts out hdec hc
    cases ts with
    | nil => simp [tokBytes, containsSL, List.isEmpty] at hc
    | cons t ts' => simp [decodeToksGo] at hdec
  | succ f ih =>
    intro ts out hdec hc
    have ha128 := hgood a (List.mem_cons_self a p')
    cases ts with
    | nil => simp [tokBytes, containsSL, List.isEmpty] at hc
    | cons t ts' =>
      rcases contains_cons_elim hc with hpre | htail
      · exact prefAt_contains _ _
          (decodeToksGo_pref (a :: p') hgood (f + 1) (t :: ts') out hdec hpre)
      · cases t with
        | raw c =>
          rw [decodeToksGo] at hdec
          simp only [Option.map_eq_some'] at hdec
          obtain ⟨out', hdec', hout⟩ := hdec
          subst hout
          exact contains_cons_intro (ih ts' out' hdec' htail)
        | byte b =>
          rw [decodeToksGo] at hdec
          cases hstep : utf8Step b ts' with
          | none => rw [hstep] at hdec; exact absurd hdec (by simp)
          | some st =>
            rw [hstep] at hdec
            simp only [Option.map_eq_some'] at hdec
            obtain ⟨out', hdec', hout⟩ := hdec
            subst hout
            obtain ⟨ch, rest2⟩ := st
            rcases utf8Step_shape b ts' ch rest2 hstep with hts |
              ⟨b1, ts1, rfl, hb1, hrest⟩
            · subst hts
              exact contains_cons_intro (ih _ out' hdec' htail)
            · have hc1 := contains_skip_byte a p' ha128 b1 hb1 ts1 htail
              rcases hrest with hts | ⟨b2, tsB, rfl, hb2, hrest2⟩
              · subst hts
                exact contains_cons_intro (ih _ out' hdec' hc1)
              · have hc2 := contains_skip_byte a p' ha128 b2 hb2 tsB hc1
                rcases hrest2 with hts | ⟨b3, tsC, rfl, hb3, hts⟩
                · subst hts
                  exact contains_cons_intro (ih _ out' hdec' hc2)
                · have hc3 := contains_skip_byte a p' ha128 b3 hb3 tsC hc2
                  subst hts
                  exact contains_cons_intro (ih _ out' hdec' hc3)


theorem pUnquote_contains (a : Char) (p' : List Char)
    (hgood : ∀ c ∈ a :: p', c.toNat < 128 ∧ c ≠ '%' ∧ hexVal c = none)
    (s t : List Char) (hdec : pUnquote s = some t)
    (hc : containsSL (a :: p') s = true) : containsSL (a :: p') t = true := by
  unfold pUnquote decodeToks at hdec
  exact decodeToksGo_contains a p' (fun c hcm => (hgood c hcm).1)
    (tokenize s).length (tokenize s) t hdec
    (tokenizeGo_contains a p' hgood s.length s le_rfl hc)

theorem iterDecode_contains (a : Char) (p' : List Char)
    (hgood : ∀ c ∈ a :: p', c.toNat < 128 ∧ c ≠ '%' ∧ hexVal c = none) :
    ∀ (k : Nat) (s t : List Char), iterDecode k s = some t →
      containsSL (a :: p') s = true → containsSL (a :: p') t = true := by
  intro k
  induction k with
  | zero =>
    intro s t h hc
    simp only [iterDecode, Option.some.injEq] at h
    exact h ▸ hc
  | succ n ih =>
    intro s t h hc
    rw [iterDecode] at h
    cases hu : pUnquote s with
    | none => rw [hu] at h; exact absurd h (by simp)
    | some u =>
      rw [hu] at h
      simp only [Option.some_bind] at h
      exact ih u t h (pUnquote_contains a p' hgood s u hu hc)

theorem iterDecode_add (a b : Nat) :
    ∀ s, iterDecode (a + b) s = (iterDecode a s).bind (iterDecode b) := by
  induction a with
  | zero => intro s; simp [iterDecode]
  | succ n ih =>
    intro s
    have h1 : n + 1 + b = (n + b) + 1 := by omega
    rw [h1]
    cases hu : pUnquote s with
    | none => simp [iterDecode, hu]
    | some u => simp [iterDecode, hu, ih u]

theorem validate_eq_decoded (s d : List Char) (hdec : iterDecode 3 s = some d) :
    validate_filename s = validateDecoded d := by
  unfold validate_filename
  rw [hdec]

theorem validate_false_of_dec_none (s : List Char)
    (h : iterDecode 3 s = none) : validate_filename s = false := by
  unfold validate_filename
  rw [h]

theorem validate_false_of_danger (s d : List Char)
    (hdec : iterDecode 3 s = some d) (p : List Char)
    (hp : p ∈ dangerous_patterns) (hcp : containsSL p d = true) :
    validate_filename s = false := by
  rw [validate_eq_decoded s d hdec]
  unfold validateDecoded
  have hany : dangerous_patterns.any (fun q => containsSL q d) = true :=
    List.any_eq_true.mpr ⟨p, hp, hcp⟩
  simp [hany]

/-- C2: for every input string such that the string obtained after up to 3
rounds of percent-decoding (any number of rounds up to 3, the raw string
included) contains dot-dot, slash or backslash, `validate_filename` returns
false; a decode error during any of the 3 passes also yields false. -/
theorem decoded_traversal_rejected (s : List Char) :
    (∀ k, k ≤ 3 → ∀ d, iterDecode k s = some d →
      (containsSL ['.', '.'] d || containsSL ['/'] d ||
        containsSL ['\\'] d) = true →
      validate_filename s = false) ∧
    (iterDecode 3 s = none → validate_filename s = false) := by
  constructor
  · intro k hk d hdec hbad
    cases h3 : iterDecode 3 s with
    | none => exact validate_false_of_dec_none s h3
    | some d3 =>
      have hstep : iterDecode (3 - k) d = some d3 := by
        have h3' := h3
        have hsplit : iterDecode 3 s = (iterDecode k s).bind (iterDecode (3 - k)) := by
          have := iterDecode_add k (3 - k) s
          rw [show k + (3 - k) = 3 by omega] at this
          exact this
        rw [hsplit, hdec] at h3'
        simpa using h3'
      rcases Bool.or_eq_true _ _ |>.mp hbad with hbad' | hbad'
      · rcases Bool.or_eq_true _ _ |>.mp hbad' with hbad'' | hbad''
        · have hc3 := iterDecode_contains '.' ['.'] (by decide) (3 - k) d d3 hstep hbad''
          exact validate_false_of_danger s d3 h3 ['.', '.'] (by decide) hc3
        · have hc3 := iterDecode_contains '/' [] (by decide) (3 - k) d d3 hstep hbad''
          exact validate_false_of_danger s d3 h3 ['/'] (by decide) hc3
      · have hc3 := iterDecode_contains '\\' [] (by decide) (3 - k) d d3 hstep hbad'
        exact validate_false_of_danger s d3 h3 ['\\'] (by decide) hc3
  · exact validate_false_of_dec_none s

/-- Witness for C2: one round of decoding `a%2e%2e%2fb.json` yields
`a../b.json`, which contains both dot-dot and slash, and validation rejects
the input. -/
theorem decoded_traversal_rejected_witness :
    (1 : Nat) ≤ 3 ∧
    iterDecode 1 "a%2e%2e%2fb.json".toList = some "a../b.json".toList ∧
    (containsSL ['.', '.'] "a../b.json".toList ||
      containsSL ['/'] "a../b.json".toList ||
      containsSL ['\\'] "a../b.json".toList) = true ∧
    validate_filename "a%2e%2e%2fb.json".toList = false := by
  refine ⟨by decide, by decide, by decide, ?_⟩
  exact (decoded_traversal_rejected "a%2e%2e%2fb.json".toList).1 1 (by decide)
    "a../b.json".toList (by decide) (by decide)

/-- C10: every raw candidate string accepted by `validate_filename` (which
validates the thrice-decoded form) itself contains no dot-dot, slash,
backslash or NUL byte and does not begin with slash or backslash; decoding
preserves these characters, so a bad raw string would already have failed the
decoded-form checks. -/
theorem raw_accepted_is_clean (s : List Char) (h : validate_filename s = true) :
    containsSL ['.', '.'] s = false ∧ containsSL ['/'] s = false ∧
    containsSL ['\\'] s = false ∧ containsSL ['\x00'] s = false ∧
    prefAt ['/'] s = false ∧ prefAt ['\\'] s = false := by
  cases hdec : iterDecode 3 s with
  | none =>
    rw [validate_false_of_dec_none s hdec] at h
    exact absurd h (by simp)
  | some d =>
    have key : ∀ (a : Char) (p' : List Char),
        (∀ c ∈ a :: p', c.toNat < 128 ∧ c ≠ '%' ∧ hexVal c = none) →
        (a :: p') ∈ dangerous_patterns → containsSL (a :: p') s = false := by
      intro a p' hg hmem
      cases hcs : containsSL (a :: p') s with
      | false => rfl
      | true =>
        have hcd := iterDecode_contains a p' hg 3 s d hdec hcs
        rw [validate_false_of_danger s d hdec (a :: p') hmem hcd] at h
        exact absurd h (by simp)
    have k1 := key '.' ['.'] (by decide) (by decide)
    have k2 := key '/' [] (by decide) (by decide)
    have k3 := key '\\' [] (by decide) (by decide)
    have k4 := key '\x00' [] (by decide) (by decide)
    refine ⟨k1, k2, k3, k4, ?_, ?_⟩
    · cases hp : prefAt ['/'] s with
      | false => rfl
      | true =>
        have := prefAt_contains _ _ hp
        rw [k2] at this
        exact absurd this (by simp)
    · cases hp : prefAt ['\\'] s with
      | false => rfl
      | true =>
        have := prefAt_contains _ _ hp
        rw [k3] at this
        exact absurd this (by simp)

/-- Witness for C10 at the accepted filename `report.json`. -/
theorem raw_accepted_is_clean_witness :
    validate_filename "report.json".toList = true ∧
    containsSL ['.', '.'] "report.json".toList = false ∧
    prefAt ['/'] "report.json".toList = false := by
  refine ⟨by decide, ?_, ?_⟩
  · exact (raw_accepted_is_clean "report.json".toList (by decide)).1
  · exact (raw_accepted_is_clean "report.json".toList (by decide)).2.2.2.2.1


theorem anchoredMatch_iff (d : List Char) :
    anchoredMatch d = true ↔
      ∃ core, d = core ++ ".json".toList ∧ core ≠ [] ∧
        core.all isSafeChar = true := by
  constructor
  · intro h
    unfold anchoredMatch at h
    obtain ⟨h1, h2⟩ := Bool.and_eq_true _ _ |>.mp h
    obtain ⟨hlen, hdrop⟩ := Bool.and_eq_true _ _ |>.mp h1
    rw [decide_eq_true_eq] at hlen
    have hdrop' : d.drop (d.length - 5) = ".json".toList := by
      simpa using hdrop
    refine ⟨d.take (d.length - 5), ?_, ?_, h2⟩
    · rw [← hdrop']
      exact (List.take_append_drop _ d).symm
    · intro hnil
      have hl := congrArg List.length hnil
      simp [List.length_take] at hl
      omega
  · rintro ⟨core, rfl, hne, hsafe⟩
    unfold anchoredMatch
    have hpos : 0 < core.length := List.length_pos.mpr hne
    have hlen : (core ++ ".json".toList).length = core.length + 5 := by simp
    rw [hlen]
    have h5 : core.length + 5 - 5 = core.length := by omega
    rw [h5]
    have hlt : 5 < core.length + 5 := by omega
    simp [hlt, List.drop_left, List.take_left, hsafe]

theorem safe_core_no_pattern (c0 : Char) (p' core suf : List Char)
    (hc0 : isSafeChar c0 = false) (hcore : core.all isSafeChar = true)
    (hsuf : containsSL (c0 :: p') suf = false) :
    containsSL (c0 :: p') (core ++ suf) = false := by
  induction core with
  | nil => simpa using hsuf
  | cons c core' ih =>
    simp only [List.all_cons, Bool.and_eq_true] at hcore
    obtain ⟨hcsafe, hrest⟩ := hcore
    have hne : c0 ≠ c := by
      intro he
      rw [he, hcsafe] at hc0
      exact Bool.noConfusion hc0
    show containsSL (c0 :: p') (c :: (core' ++ suf)) = false
    have hpref : prefAt (c0 :: p') (c :: (core' ++ suf)) = false := by
      unfold prefAt
      simp [hne]
    unfold containsSL
    rw [hpref, ih hrest]
    rfl

theorem no_danger_aux (p0 x : Char) (p' xs : List Char)
    (hp0 : isSafeChar p0 = false) (hcore : (x :: xs).all isSafeChar = true)
    (hsuf : containsSL (p0 :: p') ".json".toList = false) :
    ¬ containsSL (p0 :: p') (x :: (xs ++ ".json".toList)) = true := by
  have hmain := safe_core_no_pattern p0 p' (x :: xs) ".json".toList hp0 hcore hsuf
  rw [show ((x :: xs) ++ ".json".toList) = (x :: (xs ++ ".json".toList)) from rfl]
    at hmain
  rw [hmain]
  simp

theorem validate_true_of_anchored (s d : List Char)
    (hdec : iterDecode 3 s = some d) (hanch : anchoredMatch d = true) :
    validate_filename s = true := by
  obtain ⟨core, rfl, hne, hsafe⟩ := (anchoredMatch_iff d).mp hanch
  obtain ⟨c0, core', rfl⟩ : ∃ c0 core', core = c0 :: core' := by
    cases core with
    | nil => exact absurd rfl hne
    | cons a b => exact ⟨a, b, rfl⟩
  have hc0safe : isSafeChar c0 = true := by
    simp only [List.all_cons, Bool.and_eq_true] at hsafe
    exact hsafe.1
  rw [validate_eq_decoded s _ hdec]
  unfold validateDecoded
  have hany : dangerous_patterns.any
      (fun p => containsSL p ((c0 :: core') ++ ".json".toList)) = false := by
    rw [List.any_eq_false]
    intro p hp
    fin_cases hp <;>
      exact no_danger_aux _ _ _ _ (by decide) hsafe (by decide)
  have hs1 : prefAt ['/'] ((c0 :: core') ++ ".json".toList) = false := by
    by_cases h : '/' = c0
    · rw [← h] at hc0safe
      exact absurd hc0safe (by decide)
    · show prefAt ['/'] (c0 :: (core' ++ ".json".toList)) = false
      unfold prefAt
      simp [h]
  have hs2 : prefAt ['\\'] ((c0 :: core') ++ ".json".toList) = false := by
    by_cases h : '\\' = c0
    · rw [← h] at hc0safe
      exact absurd hc0safe (by decide)
    · show prefAt ['\\'] (c0 :: (core' ++ ".json".toList)) = false
      unfold prefAt
      simp [h]
  have hdrive : (decide (2 ≤ ((c0 :: core') ++ ".json".toList).length) &&
      (((c0 :: core') ++ ".json".toList).getD 1 ' ' == ':')) = false := by
    cases core' with
    | nil => simp [List.getD]
    | cons c1 core'' =>
      have hc1safe : isSafeChar c1 = true := by
        simp only [List.all_cons, Bool.and_eq_true] at hsafe
        exact hsafe.2.1
      have hget : (((c0 :: c1 :: core'') ++ ".json".toList)).getD 1 ' ' = c1 := rfl
      rw [hget]
      have hc1ne : (c1 == ':') = false := by
        by_cases h : c1 = ':'
        · rw [h] at hc1safe
          exact absurd hc1safe (by decide)
        · simp [h]
      simp [hc1ne]
  have hmatch : pyMatch ((c0 :: core') ++ ".json".toList) = true := by
    unfold pyMatch
    rw [hanch]
    rfl
  have hend : endsWithL ".json".toList ((c0 :: core') ++ ".json".toList) = true := by
    unfold endsWithL
    rw [List.reverse_append]
    exact prefAt_append_self _ _
  rw [hany, hs1, hs2, hdrive, hmatch, hend]
  simp

theorem anchored_of_validate (s d : List Char) (hdec : iterDecode 3 s = some d)
    (h : validate_filename s = true) : anchoredMatch d = true := by
  rw [validate_eq_decoded s d hdec] at h
  unfold validateDecoded at h
  by_cases h1 : dangerous_patterns.any (fun p => containsSL p d) = true
  · rw [if_pos h1] at h
    exact absurd h (by simp)
  · rw [if_neg h1] at h
    by_cases h2 : (prefAt ['/'] d || prefAt ['\\'] d) = true
    · rw [if_pos h2] at h
      exact absurd h (by simp)
    · rw [if_neg h2] at h
      by_cases h3 : (decide (2 ≤ d.length) && (d.getD 1 ' ' == ':')) = true
      · rw [if_pos h3] at h
        exact absurd h (by simp)
      · rw [if_neg h3] at h
        by_cases h4 : (!pyMatch d) = true
        · rw [if_pos h4] at h
          exact absurd h (by simp)
        · have hmatch : pyMatch d = true := by
            revert h4
            cases pyMatch d <;> simp
          unfold pyMatch at hmatch
          rcases Bool.or_eq_true _ _ |>.mp hmatch with hanch | htrail
          · exact hanch
          · cases hl : d.getLast? with
            | none =>
              rw [hl] at htrail
              exact absurd htrail (by simp)
            | some c =>
              rw [hl] at htrail
              obtain ⟨hnl, _⟩ := Bool.and_eq_true _ _ |>.mp htrail
              have hcnl : c = '\n' := by simpa using hnl
              subst hcnl
              obtain ⟨ys, hys⟩ := List.getLast?_eq_some_iff.mp hl
              have hmem : '\n' ∈ d := by
                rw [hys]
                simp
              have hcon : containsSL ['\n'] d = true := contains_single_of_mem hmem
              exact absurd (List.any_eq_true.mpr ⟨['\n'], by decide, hcon⟩) h1

/-- C4: `validate_filename` returns true precisely for candidates whose fully
decoded form (after the 3 decode passes, all succeeding) matches, anchored at
both ends, one or more characters of the safe class followed by the literal
suffix `.json`; together with the seven concrete evaluations the claim
lists. -/
theorem validate_iff_regex :
    (∀ s : List Char, validate_filename s = true ↔
      ∃ d, iterDecode 3 s = some d ∧ anchoredMatch d = true) ∧
    validate_filename "report.json".toList = true ∧
    validate_filename "My-File_1.json".toList = true ∧
    validate_filename "../../etc/passwd".toList = false ∧
    validate_filename "a%2e%2e%2fb.json".toList = false ∧
    validate_filename "bad name.json".toList = false ∧
    validate_filename "".toList = false ∧
    validate_filename ".json".toList = false := by
  refine ⟨?_, by decide, by decide, by decide, by decide, by decide, by decide,
    by decide⟩
  intro s
  constructor
  · intro h
    cases hdec : iterDecode 3 s with
    | none =>
      rw [validate_false_of_dec_none s hdec] at h
      exact absurd h (by simp)
    | some d => exact ⟨d, rfl, anchored_of_validate s d hdec h⟩
  · rintro ⟨d, hdec, hanch⟩
    exact validate_true_of_anchored s d hdec hanch

/-- Witness for C4: the biconditional applied at `report.json`. -/
theorem validate_iff_regex_witness :
    validate_filename "report.json".toList = true :=
  (validate_iff_regex.1 "report.json".toList).mpr
    ⟨"report.json".toList, by decide, by decide⟩


end ApiServer
